import Mathlib

/-!
Shallow embedding of `src/BoatManagement.c` (a marina boat-inventory CRUD
utility) and proofs about its record parsing, encoding, sorting, billing and
payment logic.

Modelling conventions:
* C strings are `List Char`; a text file is a `List (List Char)` of lines
  (the `fgets` / newline-stripping layer).
* C `float`/`double` values are modelled as exact rationals `ℚ`.  All numeric
  constants appearing in the program (12.50, 14.00, 25.00, 11.20) and in the
  claims are decimal literals, taken exactly.
* `strtok_r(s, ",")` yields the maximal nonempty runs of non-comma characters
  of `s`, in order; we model the full token stream as
  `tokenize s = (rawFields s).filter (not empty)`.
* `atof` / `atoi` are modelled faithfully including their permissive
  behaviour (no digits ⇒ 0, trailing garbage ignored).
* `qsort` with comparator `compareBoats` (i.e. `strcasecmp` on names) is
  modelled by insertion sort with the corresponding total preorder: the C
  standard only guarantees the output is sorted w.r.t. the comparator, and
  every theorem below depends only on sortedness.
-/

namespace BoatManagement

/-! ### Characters and low-level string helpers -/

/-- C `tolower` on ASCII (what `strcasecmp` applies to each character). -/
def lowerChar (c : Char) : Char := c.toLower

/-- Numeric value used when comparing characters case-insensitively. -/
def lowerVal (c : Char) : Nat := (lowerChar c).toNat

/-- Case-insensitive string equality: `strcasecmp(a, b) == 0`. -/
def strCaseEq (a b : List Char) : Bool := a.map lowerChar == b.map lowerChar

/-- Exact string equality: `strcmp(a, b) == 0`. -/
def strEq (a b : List Char) : Bool := a == b

/-- Case-insensitive lexicographic order on strings: `strcasecmp(a, b) <= 0`.
`strcasecmp` compares the `tolower` images byte by byte; the terminating NUL
makes a proper prefix compare smaller. -/
def caseLe : List Char → List Char → Bool
  | [], _ => true
  | _ :: _, [] => false
  | a :: as, b :: bs =>
    if lowerVal a < lowerVal b then true
    else if lowerVal a = lowerVal b then caseLe as bs
    else false

/-! ### Splitting a CSV line into `strtok_r` tokens -/

/-- The comma-separated raw fields of a line (empty fields included); a
non-comma character is prepended to the first field of the rest (the result
is always nonempty, see `rawFields_ne_nil`). -/
def rawFields : List Char → List (List Char)
  | [] => [[]]
  | c :: cs =>
    if c = ',' then [] :: rawFields cs
    else (c :: (rawFields cs).headI) :: (rawFields cs).tail

/-- The successive tokens produced by repeated `strtok_r(rest, ",", &rest)`:
the maximal nonempty runs between commas, i.e. the nonempty raw fields. -/
def tokenize (s : List Char) : List (List Char) :=
  (rawFields s).filter (fun f => !f.isEmpty)

/-- Join raw fields back into a line with comma separators (inverse image of
`rawFields`; used to state claims about lines "with an empty field"). -/
def joinFields : List (List Char) → List Char
  | [] => []
  | [f] => f
  | f :: fs => f ++ ',' :: joinFields fs

/-! ### Permissive numeric parsing (`atoi`, `atof`) -/

/-- The characters C `isspace` accepts (the whitespace `atoi`/`atof` skip). -/
def isSpaceChar (c : Char) : Bool :=
  c == ' ' || c == '\t' || c == '\n' || c == '\x0b' || c == '\x0c' || c == '\r'

/-- Skip leading whitespace, as `atoi`/`atof` do. -/
def skipSpaces (s : List Char) : List Char := s.dropWhile isSpaceChar

/-- Consume one optional sign character; `true` means negative. -/
def takeSign : List Char → Bool × List Char
  | [] => (false, [])
  | c :: r =>
    if c = '-' then (true, r)
    else if c = '+' then (false, r)
    else (false, c :: r)

/-- Value of a decimal digit character. -/
def digitVal (c : Char) : Nat := c.toNat - 48

/-- Accumulate a digit string left to right, as the usual conversion loop. -/
def digitsToNat (ds : List Char) : Nat :=
  ds.foldl (fun a c => 10 * a + digitVal c) 0

/-- Powers of ten with an integer exponent (for `atof` exponents). -/
def pow10 : ℤ → ℚ
  | Int.ofNat n => (10 : ℚ) ^ n
  | Int.negSucc n => 1 / (10 : ℚ) ^ (n + 1)

/-- C `atoi`: skip whitespace, optional sign, then leading digits; anything
non-numeric yields `0`, trailing garbage is ignored. -/
def atoiZ (s : List Char) : ℤ :=
  let s1 := skipSpaces s
  let p := takeSign s1
  let ds := p.2.takeWhile Char.isDigit
  let v : ℤ := (digitsToNat ds : ℤ)
  if p.1 then -v else v

/-- Case-insensitive test that `pat` is an initial segment of `s` (how
`strtod` recognizes its INF/NAN keywords). -/
def lowerPrefixOf (pat s : List Char) : Bool :=
  decide ((s.take pat.length).map lowerChar = pat)

/-- The special forms `strtod` converts to IEEE values with no finite
rational counterpart: after whitespace and sign, a case-insensitive `INF`
(also the long form `INFINITY`, recognized already by its first three
characters) or `NAN` (with or without an n-char-sequence).  The C program
stores IEEE ±infinity/NaN for such fields; those values have no image in
`ℚ`, so these inputs are outside this model's numeric domain, and the
theorem about non-numeric parsing (claim C9) excludes them by an explicit
hypothesis rather than relying on the placeholder value below. -/
def strtodSpecial (s2 : List Char) : Bool :=
  lowerPrefixOf ['i', 'n', 'f'] s2 || lowerPrefixOf ['n', 'a', 'n'] s2

/-- Finite-decimal part of C `atof` (`strtod`), applied after whitespace,
sign, and the INF/NAN check: integer digits, optional `.` plus fraction
digits, optional exponent.  If there is no digit in the integer and
fraction parts, no conversion is performed and the value is `0`.
C99 hexadecimal input (`0x…`) is not modelled; such input starts with the
digit `0`, so it cannot occur in any digit-free hypothesis below. -/
def atofDecimal (s2 : List Char) : ℚ :=
  let ip := s2.takeWhile Char.isDigit
  let s3 := s2.dropWhile Char.isDigit
  let fpRest : List Char × List Char :=
    match s3 with
    | c :: r =>
      if c = '.' then (r.takeWhile Char.isDigit, r.dropWhile Char.isDigit)
      else ([], s3)
    | [] => ([], s3)
  let fp := fpRest.1
  if ip.isEmpty ∧ fp.isEmpty then 0
  else
    let mant : ℚ := (digitsToNat ip : ℚ) + (digitsToNat fp : ℚ) / (10 : ℚ) ^ fp.length
    let e : ℤ :=
      match fpRest.2 with
      | c :: r =>
        if c = 'e' ∨ c = 'E' then
          let q := takeSign r
          let ed := q.2.takeWhile Char.isDigit
          if ed.isEmpty then 0
          else if q.1 then -(digitsToNat ed : ℤ) else (digitsToNat ed : ℤ)
        else 0
      | [] => 0
    mant * pow10 e

/-- Magnitude part of C `atof` (`strtod`), applied after whitespace and
sign handling: first the INF/NAN keyword check (whose IEEE result has no
image in `ℚ`; the `0` returned on that branch is a placeholder for a value
the rational model cannot express — see `strtodSpecial`), then the
finite-decimal grammar. -/
def atofMag (s2 : List Char) : ℚ :=
  if strtodSpecial s2 then 0 else atofDecimal s2

/-- C `atof` (`strtod`): skip whitespace, read an optional sign, then the
magnitude.  Inputs whose post-sign text matches `strtodSpecial` denote
IEEE ±infinity/NaN in the C program and are outside this model's numeric
domain. -/
def atofQ (s : List Char) : ℚ :=
  let p := takeSign (skipSpaces s)
  if p.1 then -atofMag p.2 else atofMag p.2

/-! ### Printing numbers (`printf` formats used by `saveBoatData`) -/

/-- The character for one decimal digit. -/
def digitChar : Nat → Char
  | 0 => '0' | 1 => '1' | 2 => '2' | 3 => '3' | 4 => '4'
  | 5 => '5' | 6 => '6' | 7 => '7' | 8 => '8' | _ => '9'

/-- Fueled digit-extraction loop: most significant digit first; `fuel`
bounds the recursion depth (any `fuel ≥ n` is enough). -/
def natCharsAux : Nat → Nat → List Char
  | 0, _ => []
  | _ + 1, 0 => []
  | fuel + 1, n + 1 =>
    natCharsAux fuel ((n + 1) / 10) ++ [digitChar ((n + 1) % 10)]

/-- Decimal digit string of a natural number (most significant first),
printing `0` as `"0"` as `printf` does. -/
def natChars (n : Nat) : List Char :=
  if n = 0 then ['0'] else natCharsAux n n

/-- Decimal string of an integer (`printf "%d"`). -/
def intChars (m : ℤ) : List Char :=
  if m < 0 then '-' :: natChars m.natAbs else natChars m.natAbs

/-- Round to the nearest integer, ties to even: what `printf` does to the
discarded fractional part under the default rounding mode. -/
def roundHalfEven (q : ℚ) : ℤ :=
  let f := q.floor
  let r := q - (f : ℚ)
  if r < 1 / 2 then f
  else if 1 / 2 < r then f + 1
  else if f % 2 = 0 then f else f + 1

/-- Render with no decimals: `printf "%.0f"`. -/
def formatF0 (q : ℚ) : List Char := intChars (roundHalfEven q)

/-- Two-character zero-padded rendering of a value below 100. -/
def pad2 (n : Nat) : List Char := [digitChar (n / 10), digitChar (n % 10)]

/-- Render with two decimals: `printf "%.2f"` (round to cents, ties to
even, then print `int.fraction`). -/
def formatF2 (q : ℚ) : List Char :=
  let m := roundHalfEven (q * 100)
  let core := natChars (m.natAbs / 100) ++ '.' :: pad2 (m.natAbs % 100)
  if m < 0 then '-' :: core else core

/-! ### The record model -/

/-- Tagged location payload: the C `LocationType` enum together with the
member of the `LocationInfo` union that the program reads for that tag. -/
inductive Location
  | slip (slipNumber : ℤ)
  | land (bayLetter : Char)
  | trailor (trailorTag : List Char)
  | storage (storageSpace : ℤ)
deriving DecidableEq

/-- The `Boat` struct.  `name` is truncated to 127 characters by the
`strncpy` in both parsers. -/
structure Boat where
  name : List Char
  length : ℚ
  location : Location
  amountOwed : ℚ
deriving DecidableEq

def MAX_BOATS : Nat := 120
def MAX_NAME_LENGTH : Nat := 128

def SLIP_RATE : ℚ := 12.50
def LAND_RATE : ℚ := 14.00
def TRAILOR_RATE : ℚ := 25.00
def STORAGE_RATE : ℚ := 11.20

def slipKw : List Char := ['s', 'l', 'i', 'p']
def landKw : List Char := ['l', 'a', 'n', 'd']
def trailorKw : List Char := ['t', 'r', 'a', 'i', 'l', 'o', 'r']
def storageKw : List Char := ['s', 't', 'o', 'r', 'a', 'g', 'e']

/-- The `locationTypeToString` switch. -/
def locationTypeToString : Location → List Char
  | .slip _ => slipKw
  | .land _ => landKw
  | .trailor _ => trailorKw
  | .storage _ => storageKw

/-! ### CSV decoding (`loadBoatData` / `addBoat` parsing logic)

Both parsers fetch tokens with `strtok_r` in the same order: name, length,
location-type keyword, location value, amount owed, rejecting as soon as a
fetch returns NULL (or the keyword is unrecognized, or the bay-letter token
is empty).  They differ in exactly one place: `loadBoatData` compares the
keyword with `strcmp`, `addBoat` with `strcasecmp`.  `eqKw` abstracts that
comparison. -/

/-- The keyword `if`/`else if` chain of both parsers: recognize the
location-type keyword and fetch the following location-value token,
rejecting an unknown keyword, a missing value token, or (for `land`) an
empty bay-letter token. -/
def parseLoc (eqKw : List Char → List Char → Bool) (typTok : List Char) :
    List (List Char) → Option (Location × List (List Char))
  | rest2 =>
    if eqKw typTok slipKw then
      match rest2 with
      | valTok :: rest3 => some (.slip (atoiZ valTok), rest3)
      | [] => none
    else if eqKw typTok landKw then
      match rest2 with
      | valTok :: rest3 =>
        match valTok with
        | c :: _ => some (.land c, rest3)
        | [] => none
      | [] => none
    else if eqKw typTok trailorKw then
      match rest2 with
      | valTok :: rest3 => some (.trailor (valTok.take 9), rest3)
      | [] => none
    else if eqKw typTok storageKw then
      match rest2 with
      | valTok :: rest3 => some (.storage (atoiZ valTok), rest3)
      | [] => none
    else none

/-- Parse the token stream of one line into a `Boat`, mirroring the
token-by-token control flow of the C parsers: name, length, location
keyword and value, then amount owed. -/
def parseBoatTokens (eqKw : List Char → List Char → Bool) :
    List (List Char) → Option Boat
  | nameTok :: lenTok :: typTok :: rest2 =>
    match parseLoc eqKw typTok rest2 with
    | some (loc, amtTok :: _) =>
      some { name := nameTok.take (MAX_NAME_LENGTH - 1)
             length := atofQ lenTok
             location := loc
             amountOwed := atofQ amtTok }
    | some (_, []) => none
    | none => none
  | _ => none

/-- Decoding one file line in `loadBoatData`: keyword matched with `strcmp`
(exact, lowercase only). -/
def loadDecode (line : List Char) : Option Boat :=
  parseBoatTokens strEq (tokenize line)

/-- Decoding the user-supplied line in `addBoat`: the line is first copied
into a 256-byte buffer (truncation to 255 characters), and the keyword is
matched with `strcasecmp`. -/
def addDecode (line : List Char) : Option Boat :=
  parseBoatTokens strCaseEq (tokenize (line.take 255))

/-! ### CSV encoding (`saveBoatData`) -/

/-- The location value as written by the `switch` in `saveBoatData`. -/
def encodeLocationValue : Location → List Char
  | .slip n => intChars n
  | .land c => [c]
  | .trailor t => t
  | .storage n => intChars n

/-- One output line of `saveBoatData`:
`fprintf(file, "%s,%.0f,%s,", name, length, keyword)` then the location
value, then `fprintf(file, ",%.2f\n", amountOwed)` (newline stripped, since
lines are modelled unterminated). -/
def encodeBoat (b : Boat) : List Char :=
  b.name ++ ',' :: (formatF0 b.length ++ ',' :: (locationTypeToString b.location
   ++ ',' :: (encodeLocationValue b.location ++ ',' :: formatF2 b.amountOwed)))

/-- Shape of every record the decoders can produce: the name is a nonempty
comma-free token truncated to 127 characters, and the location payload has
the corresponding token-derived shape. -/
def encodable (b : Boat) : Prop :=
  b.name ≠ [] ∧ ',' ∉ b.name ∧ b.name.length ≤ MAX_NAME_LENGTH - 1 ∧
  match b.location with
  | .slip _ => True
  | .land c => c ≠ ','
  | .trailor t => t ≠ [] ∧ ',' ∉ t ∧ t.length ≤ 9
  | .storage _ => True

/-- `saveBoatData`: the file contents after saving, one line per boat in
collection order. -/
def saveBoatData (boats : List Boat) : List (List Char) :=
  boats.map encodeBoat

/-! ### Sorting and lookup -/

/-- The `compareBoats` order: `strcasecmp` on names, as a relation. -/
def boatLe (a b : Boat) : Prop := caseLe a.name b.name = true

instance : DecidableRel boatLe := fun a b => instDecidableEqBool (caseLe a.name b.name) true

instance : IsTotal Boat boatLe where
  total := by
    intro a b
    unfold boatLe
    generalize a.name = x
    generalize b.name = y
    induction x generalizing y with
    | nil => left; rfl
    | cons xc xs ih =>
      cases y with
      | nil => right; rfl
      | cons yc ys =>
        simp only [caseLe]
        rcases lt_trichotomy (lowerVal xc) (lowerVal yc) with h | h | h
        · left
          simp [h]
        · rcases ih ys with h2 | h2
          · left
            simp [h, h2]
          · right
            simp [h.symm, h2, lt_irrefl]
        · right
          simp [h]

instance : IsTrans Boat boatLe where
  trans := by
    intro a b c
    unfold boatLe
    generalize a.name = x
    generalize b.name = y
    generalize c.name = z
    induction x generalizing y z with
    | nil => intro _ _; rfl
    | cons xc xs ih =>
      intro hxy hyz
      cases y with
      | nil => simp [caseLe] at hxy
      | cons yc ys =>
        cases z with
        | nil => simp [caseLe] at hyz
        | cons zc zs =>
          simp only [caseLe] at hxy hyz ⊢
          by_cases h1 : lowerVal xc < lowerVal yc
          · by_cases h2 : lowerVal yc < lowerVal zc
            · simp [lt_trans h1 h2]
            · rw [if_neg h2] at hyz
              by_cases h3 : lowerVal yc = lowerVal zc
              · have : lowerVal xc < lowerVal zc := h3 ▸ h1
                simp [this]
              · rw [if_neg h3] at hyz
                exact absurd hyz (by simp)
          · rw [if_neg h1] at hxy
            by_cases h3 : lowerVal xc = lowerVal yc
            · rw [if_pos h3] at hxy
              by_cases h2 : lowerVal yc < lowerVal zc
              · have : lowerVal xc < lowerVal zc := h3 ▸ h2
                simp [this]
              · rw [if_neg h2] at hyz
                by_cases h4 : lowerVal yc = lowerVal zc
                · rw [if_pos h4] at hyz
                  have h5 : lowerVal xc = lowerVal zc := h3.trans h4
                  by_cases h6 : lowerVal xc < lowerVal zc
                  · simp [h6]
                  · rw [if_neg h6, if_pos h5]
                    exact ih ys zs hxy hyz
                · rw [if_neg h4] at hyz
                  exact absurd hyz (by simp)
            · rw [if_neg h3] at hxy
              exact absurd hxy (by simp)

/-- The collection after `qsort(boats, n, sizeof(Boat*), compareBoats)`,
modelled as insertion sort by `boatLe` (see the header note on `qsort`). -/
def sortBoats (boats : List Boat) : List Boat :=
  List.insertionSort boatLe boats

/-- `findBoatByName`: index of the first boat whose name matches
case-insensitively, scanning from index 0; `none` for the C return `-1`. -/
def findBoatByName (boats : List Boat) (name : List Char) : Option Nat :=
  match boats with
  | [] => none
  | b :: bs =>
    if strCaseEq b.name name then some 0
    else (findBoatByName bs name).map (· + 1)

/-! ### Store operations -/

/-- The reading loop of `loadBoatData`: consume lines while fewer than
`MAX_BOATS` records have been accepted, keeping successfully decoded
records and silently skipping the rest. -/
def loadRaw : List (List Char) → List Boat → List Boat
  | [], acc => acc
  | l :: ls, acc =>
    if acc.length < MAX_BOATS then
      match loadDecode l with
      | some b => loadRaw ls (acc ++ [b])
      | none => loadRaw ls acc
    else acc

/-- `loadBoatData`: read (up to capacity), then sort by name. -/
def loadBoatData (lines : List (List Char)) : List Boat :=
  sortBoats (loadRaw lines [])

/-- `addBoat`: reject at capacity, reject on decode failure, otherwise
append and re-sort. -/
def addBoat (boats : List Boat) (boatData : List Char) : List Boat :=
  if MAX_BOATS ≤ boats.length then boats
  else
    match addDecode boatData with
    | none => boats
    | some b => sortBoats (boats ++ [b])

/-- `removeBoat` (after reading `name` from the user): first-match
case-insensitive lookup; on a hit free that slot and shift the rest down. -/
def removeBoat (boats : List Boat) (name : List Char) : List Boat :=
  match findBoatByName boats name with
  | none => boats
  | some i => boats.eraseIdx i

/-- `acceptPayment` (after reading the name and the amount text): reject a
payment larger than the balance with no change, otherwise subtract. -/
def acceptPayment (boats : List Boat) (name : List Char) (payment : ℚ) :
    List Boat :=
  match findBoatByName boats name with
  | none => boats
  | some i =>
    match boats[i]? with
    | none => boats
    | some b =>
      if b.amountOwed < payment then boats
      else boats.set i { b with amountOwed := b.amountOwed - payment }

/-- The per-foot monthly rate of a location kind (the four `#define`d
rates, selected by tag). -/
def ratePerFoot : Location → ℚ
  | .slip _ => SLIP_RATE
  | .land _ => LAND_RATE
  | .trailor _ => TRAILOR_RATE
  | .storage _ => STORAGE_RATE

/-- The per-boat monthly charge (the `switch` in `updateMonthlyCharges`). -/
def monthlyCharge (b : Boat) : ℚ :=
  match b.location with
  | .slip _ => b.length * SLIP_RATE
  | .land _ => b.length * LAND_RATE
  | .trailor _ => b.length * TRAILOR_RATE
  | .storage _ => b.length * STORAGE_RATE

/-- `updateMonthlyCharges`: add each boat's monthly charge to its balance. -/
def updateMonthlyCharges (boats : List Boat) : List Boat :=
  boats.map (fun b => { b with amountOwed := b.amountOwed + monthlyCharge b })

/-! ### The interactive loop as a state machine

One menu interaction, with the user-typed text as data.  The payment amount
is parsed from the typed buffer with `atof` exactly as in `acceptPayment`. -/

inductive Command
  | inventory
  | add (line : List Char)
  | remove (name : List Char)
  | pay (name : List Char) (amountText : List Char)
  | month

/-- Effect of one menu interaction on the collection. -/
def stepCommand (boats : List Boat) : Command → List Boat
  | .inventory => boats
  | .add line => addBoat boats line
  | .remove name => removeBoat boats name
  | .pay name amountText => acceptPayment boats name (atofQ amountText)
  | .month => updateMonthlyCharges boats

/-- The collection after a session: load, then run the menu interactions. -/
def runSession (lines : List (List Char)) (cmds : List Command) : List Boat :=
  cmds.foldl stepCommand (loadBoatData lines)

/-! ## Verification

The Batteries rational operations are `@[irreducible]`, which blocks
elaborator-side evaluation of concrete rational arithmetic; re-marking them
semireducible lets `decide` evaluate the model on concrete inputs (the
kernel reduces them either way). -/

set_option allowUnsafeReducibility true
attribute [local semireducible] Rat.mul Rat.add Rat.div Rat.sub Rat.neg
  Rat.inv Rat.normalize Rat.ofScientific

/-! ### Tokenizer lemmas -/

theorem rawFields_ne_nil (s : List Char) : rawFields s ≠ [] := by
  cases s with
  | nil => simp [rawFields]
  | cons c cs =>
    by_cases hc : c = ',' <;> simp [rawFields, hc]

theorem rawFields_no_comma {a : List Char} (h : ',' ∉ a) : rawFields a = [a] := by
  induction a with
  | nil => rfl
  | cons c cs ih =>
    have hc : ¬ c = ',' := fun hc => h (hc ▸ List.mem_cons_self c cs)
    have ih' := ih (fun hm => h (List.mem_cons_of_mem c hm))
    simp [rawFields, hc, ih']

theorem rawFields_append {a : List Char} (r : List Char) (h : ',' ∉ a) :
    rawFields (a ++ ',' :: r) = a :: rawFields r := by
  induction a with
  | nil => simp [rawFields]
  | cons c cs ih =>
    have hc : ¬ c = ',' := fun hc => h (hc ▸ List.mem_cons_self c cs)
    have ih' := ih (fun hm => h (List.mem_cons_of_mem c hm))
    simp only [List.cons_append, rawFields, hc, if_false, ih']
    simp [ih']

theorem headI_mem_of_ne_nil {l : List (List Char)} (h : l ≠ []) :
    l.headI ∈ l := by
  cases l with
  | nil => exact absurd rfl h
  | cons x xs => exact List.mem_cons_self x xs

theorem mem_rawFields_no_comma {s : List Char} :
    ∀ f ∈ rawFields s, ',' ∉ f := by
  induction s with
  | nil =>
    intro f hf
    simp [rawFields] at hf
    simp [hf]
  | cons c cs ih =>
    intro f hf
    by_cases hc : c = ','
    · subst hc
      have hru : rawFields (',' :: cs) = [] :: rawFields cs := by
        simp [rawFields]
      rw [hru] at hf
      rcases List.mem_cons.1 hf with hf0 | hf
      · subst hf0
        simp
      · exact ih f hf
    · have hru : rawFields (c :: cs)
          = (c :: (rawFields cs).headI) :: (rawFields cs).tail := by
        simp [rawFields, hc]
      rw [hru] at hf
      rcases List.mem_cons.1 hf with hf1 | hf2
      · subst hf1
        intro hmem
        rcases List.mem_cons.1 hmem with h1 | h1
        · exact hc h1.symm
        · have hhead : (rawFields cs).headI ∈ rawFields cs :=
            headI_mem_of_ne_nil (rawFields_ne_nil cs)
          exact ih _ hhead h1
      · exact ih f (List.mem_of_mem_tail hf2)

theorem tokenize_append {a : List Char} (r : List Char) (h : ',' ∉ a)
    (hne : a ≠ []) : tokenize (a ++ ',' :: r) = a :: tokenize r := by
  unfold tokenize
  rw [rawFields_append r h, List.filter_cons]
  have : a.isEmpty = false := by
    cases a with
    | nil => exact absurd rfl hne
    | cons x xs => rfl
  simp [this]

theorem tokenize_single {a : List Char} (h : ',' ∉ a) (hne : a ≠ []) :
    tokenize a = [a] := by
  unfold tokenize
  rw [rawFields_no_comma h, List.filter_cons]
  have : a.isEmpty = false := by
    cases a with
    | nil => exact absurd rfl hne
    | cons x xs => rfl
  simp [this]

theorem mem_tokenize {s t : List Char} (h : t ∈ tokenize s) :
    t ≠ [] ∧ ',' ∉ t := by
  unfold tokenize at h
  have h2 := List.mem_filter.1 h
  refine ⟨?_, mem_rawFields_no_comma t h2.1⟩
  intro hnil
  subst hnil
  simp at h2

/-! ### Digit printing and reparsing -/

theorem digitChar_spec {d : Nat} (h : d < 10) :
    (digitChar d).isDigit = true ∧ digitVal (digitChar d) = d ∧
    isSpaceChar (digitChar d) = false ∧ digitChar d ≠ '-' ∧
    digitChar d ≠ '+' ∧ digitChar d ≠ ',' ∧ digitChar d ≠ '.' := by
  interval_cases d <;> refine ⟨rfl, rfl, rfl, ?_, ?_, ?_, ?_⟩ <;> decide

theorem natCharsAux_digits :
    ∀ fuel n, ∀ c ∈ natCharsAux fuel n, ∃ d, d < 10 ∧ c = digitChar d := by
  intro fuel
  induction fuel with
  | zero => intro n c hc; simp [natCharsAux] at hc
  | succ fuel ih =>
    intro n c hc
    cases n with
    | zero => simp [natCharsAux] at hc
    | succ m =>
      simp only [natCharsAux, List.mem_append, List.mem_singleton] at hc
      rcases hc with hc | hc
      · exact ih _ c hc
      · exact ⟨(m + 1) % 10, Nat.mod_lt _ (by omega), hc⟩

theorem natChars_digits {n : Nat} :
    ∀ c ∈ natChars n, ∃ d, d < 10 ∧ c = digitChar d := by
  intro c hc
  unfold natChars at hc
  by_cases h : n = 0
  · simp [h] at hc
    exact ⟨0, by omega, hc⟩
  · simp only [h, if_false] at hc
    exact natCharsAux_digits n n c hc

theorem natChars_ne_nil (n : Nat) : natChars n ≠ [] := by
  unfold natChars
  by_cases h : n = 0
  · simp [h]
  · simp only [h, if_false]
    cases n with
    | zero => exact absurd rfl h
    | succ m => simp [natCharsAux]

theorem digitsToNat_append_digit (a : List Char) (c : Char) :
    digitsToNat (a ++ [c]) = 10 * digitsToNat a + digitVal c := by
  unfold digitsToNat
  rw [List.foldl_append]
  rfl

theorem digitsToNat_natCharsAux :
    ∀ fuel n, n ≤ fuel → digitsToNat (natCharsAux fuel n) = n := by
  intro fuel
  induction fuel with
  | zero =>
    intro n h
    interval_cases n
    simp [natCharsAux, digitsToNat]
  | succ fuel ih =>
    intro n h
    cases n with
    | zero => simp [natCharsAux, digitsToNat]
    | succ m =>
      have hdiv : (m + 1) / 10 ≤ fuel := by
        have := Nat.div_lt_self (Nat.succ_pos m) (by omega : 1 < 10)
        omega
      have hmod : (m + 1) % 10 < 10 := Nat.mod_lt _ (by omega)
      rw [natCharsAux, digitsToNat_append_digit, ih _ hdiv,
        (digitChar_spec hmod).2.1]
      omega

theorem digitsToNat_natChars (n : Nat) : digitsToNat (natChars n) = n := by
  unfold natChars
  by_cases h : n = 0
  · simp [h, digitsToNat, digitVal]
  · simp only [h, if_false]
    exact digitsToNat_natCharsAux n n le_rfl

/-! ### Generic takeWhile / dropWhile decomposition -/

theorem span_append {p : Char → Bool} :
    ∀ (a r : List Char), (∀ c ∈ a, p c = true) →
      (∀ x, r.head? = some x → p x = false) →
      (a ++ r).takeWhile p = a ∧ (a ++ r).dropWhile p = r := by
  intro a
  induction a with
  | nil =>
    intro r _ hr
    cases r with
    | nil => simp
    | cons x xs =>
      have := hr x rfl
      simp [List.takeWhile_cons, List.dropWhile_cons, this]
  | cons c cs ih =>
    intro r h hr
    have hc : p c = true := h c (List.mem_cons_self c cs)
    have := ih r (fun x hx => h x (List.mem_cons_of_mem c hx)) hr
    simp [List.takeWhile_cons, List.dropWhile_cons, hc, this.1, this.2]

/-! ### Reparsing printed numbers -/

theorem natChars_isDigit {n : Nat} : ∀ c ∈ natChars n, c.isDigit = true := by
  intro c hc
  obtain ⟨d, hd, rfl⟩ := natChars_digits c hc
  exact (digitChar_spec hd).1

theorem natChars_head_facts (n : Nat) :
    ∃ c rest, natChars n = c :: rest ∧ isSpaceChar c = false ∧
      c ≠ '-' ∧ c ≠ '+' := by
  rcases hn : natChars n with _ | ⟨c, rest⟩
  · exact absurd hn (natChars_ne_nil n)
  · have hc : c ∈ natChars n := hn ▸ List.mem_cons_self c rest
    obtain ⟨d, hd, rfl⟩ := natChars_digits c hc
    obtain ⟨_, _, h3, h4, h5, _, _⟩ := digitChar_spec hd
    exact ⟨_, rest, rfl, h3, h4, h5⟩

theorem takeSign_not_sign {c : Char} {r : List Char} (h1 : c ≠ '-')
    (h2 : c ≠ '+') : takeSign (c :: r) = (false, c :: r) := by
  simp [takeSign, h1, h2]

theorem skipSpaces_cons_not_space {c : Char} {r : List Char}
    (h : isSpaceChar c = false) : skipSpaces (c :: r) = c :: r := by
  simp [skipSpaces, List.dropWhile_cons, h]

/-- After whitespace-skip and sign handling, a printed natural followed by a
non-digit suffix splits cleanly. -/
theorem natChars_span {n : Nat} {r : List Char}
    (hr : ∀ x, r.head? = some x → x.isDigit = false) :
    (natChars n ++ r).takeWhile Char.isDigit = natChars n ∧
      (natChars n ++ r).dropWhile Char.isDigit = r :=
  span_append _ _ (fun c hc => natChars_isDigit c hc) hr

theorem atoiZ_natChars_append {n : Nat} {r : List Char}
    (hr : ∀ x, r.head? = some x → x.isDigit = false) :
    atoiZ (natChars n ++ r) = (n : ℤ) := by
  obtain ⟨c, rest, hn, hspace, hminus, hplus⟩ := natChars_head_facts n
  have hcons : natChars n ++ r = c :: (rest ++ r) := by rw [hn]; rfl
  simp only [atoiZ]
  rw [hcons, skipSpaces_cons_not_space hspace, takeSign_not_sign hminus hplus,
    ← hcons, (natChars_span hr).1, digitsToNat_natChars]
  rfl

theorem atoiZ_intChars_append {m : ℤ} {r : List Char}
    (hr : ∀ x, r.head? = some x → x.isDigit = false) :
    atoiZ (intChars m ++ r) = m := by
  by_cases hm : m < 0
  · have hrepr : intChars m = '-' :: natChars m.natAbs := by
      simp [intChars, hm]
    simp only [atoiZ]
    rw [hrepr, List.cons_append,
      skipSpaces_cons_not_space (by decide : isSpaceChar '-' = false)]
    have hsign : takeSign ('-' :: (natChars m.natAbs ++ r))
        = (true, natChars m.natAbs ++ r) := by
      simp [takeSign]
    rw [hsign]
    simp only [(natChars_span hr).1, digitsToNat_natChars]
    have : ((m.natAbs : ℤ)) = -m := by omega
    simp [this]
  · have hrepr : intChars m = natChars m.natAbs := by
      simp [intChars, hm]
    rw [hrepr, atoiZ_natChars_append hr]
    have : ((m.natAbs : ℤ)) = m := by omega
    rw [this]

theorem atoiZ_intChars (m : ℤ) : atoiZ (intChars m) = m := by
  have := atoiZ_intChars_append (m := m) (r := [])
    (fun x hx => by simp at hx)
  simpa using this

/-! ### Reparsing decimal renderings with `atof` -/

theorem pad2_isDigit {b : Nat} (h : b < 100) : ∀ c ∈ pad2 b, c.isDigit = true := by
  intro c hc
  have h1 : b / 10 < 10 := by omega
  have h2 : b % 10 < 10 := Nat.mod_lt _ (by omega)
  rcases List.mem_cons.1 hc with rfl | hc2
  · exact (digitChar_spec h1).1
  · have : c = digitChar (b % 10) := by simpa using hc2
    subst this
    exact (digitChar_spec h2).1

theorem digitsToNat_pad2 {b : Nat} (h : b < 100) : digitsToNat (pad2 b) = b := by
  have h1 : b / 10 < 10 := by omega
  have h2 : b % 10 < 10 := Nat.mod_lt _ (by omega)
  simp only [pad2, digitsToNat, List.foldl_cons, List.foldl_nil,
    (digitChar_spec h1).2.1, (digitChar_spec h2).2.1]
  omega

theorem digitChar_lower_facts {d : Nat} (h : d < 10) :
    ¬ lowerChar (digitChar d) = 'i' ∧ ¬ lowerChar (digitChar d) = 'n' := by
  interval_cases d <;> exact ⟨by decide, by decide⟩

theorem strtodSpecial_of_head {c : Char} (r : List Char)
    (h1 : ¬ lowerChar c = 'i') (h2 : ¬ lowerChar c = 'n') :
    strtodSpecial (c :: r) = false := by
  unfold strtodSpecial lowerPrefixOf
  simp only [Bool.or_eq_false_iff, decide_eq_false_iff_not]
  constructor
  · intro h
    have h3 : ((c :: r).take (['i', 'n', 'f'] : List Char).length).map lowerChar
        = lowerChar c :: (r.take 2).map lowerChar := rfl
    rw [h3] at h
    injection h with h4 _
    exact h1 h4
  · intro h
    have h3 : ((c :: r).take (['n', 'a', 'n'] : List Char).length).map lowerChar
        = lowerChar c :: (r.take 2).map lowerChar := rfl
    rw [h3] at h
    injection h with h4 _
    exact h2 h4

theorem strtodSpecial_natChars (n : Nat) (r : List Char) :
    strtodSpecial (natChars n ++ r) = false := by
  rcases hn : natChars n with _ | ⟨c, rest⟩
  · exact absurd hn (natChars_ne_nil n)
  · have hc : c ∈ natChars n := hn ▸ List.mem_cons_self c rest
    obtain ⟨d, hd, rfl⟩ := natChars_digits c hc
    exact strtodSpecial_of_head _ (digitChar_lower_facts hd).1
      (digitChar_lower_facts hd).2

theorem atofMag_eq_decimal {s2 : List Char} (h : strtodSpecial s2 = false) :
    atofMag s2 = atofDecimal s2 := by
  simp [atofMag, h]

theorem atofMag_natChars (k : Nat) : atofMag (natChars k) = (k : ℚ) := by
  have hsp : strtodSpecial (natChars k) = false := by
    have := strtodSpecial_natChars k []
    simpa using this
  rw [atofMag_eq_decimal hsp]
  have hspan := natChars_span (n := k) (r := []) (fun x hx => by simp at hx)
  simp only [List.append_nil] at hspan
  simp only [atofDecimal, hspan.1, hspan.2, digitsToNat_natChars]
  have hne : (natChars k).isEmpty = false := by
    rcases hn : natChars k with _ | ⟨c, rest⟩
    · exact absurd hn (natChars_ne_nil k)
    · rfl
  simp [hne, digitsToNat, pow10]

theorem atofMag_natChars_frac {k b : Nat} (hb : b < 100) :
    atofMag (natChars k ++ '.' :: pad2 b) = (k : ℚ) + (b : ℚ) / 100 := by
  rw [atofMag_eq_decimal (strtodSpecial_natChars k ('.' :: pad2 b))]
  have hspan := natChars_span (n := k) (r := '.' :: pad2 b)
    (fun x hx => by
      simp at hx
      rw [← hx]
      rfl)
  have hspan2 := span_append (p := Char.isDigit) (pad2 b) []
    (fun c hc => pad2_isDigit hb c hc) (fun x hx => by simp at hx)
  simp only [List.append_nil] at hspan2
  have hne : (natChars k).isEmpty = false := by
    rcases hn : natChars k with _ | ⟨c, rest⟩
    · exact absurd hn (natChars_ne_nil k)
    · rfl
  have hlen : (pad2 b).length = 2 := rfl
  simp only [atofDecimal, hspan.1, hspan.2, if_pos rfl, hspan2.1, hspan2.2,
    digitsToNat_natChars, digitsToNat_pad2 hb, hne, hlen]
  norm_num [pow10]
  rw [digitsToNat_pad2 hb, hlen]
  norm_num

theorem natAbs_cast_q (m : ℤ) : ((m.natAbs : Nat) : ℚ) = |(m : ℚ)| := by
  simp [Int.cast_natAbs, Int.cast_abs]

theorem atofQ_natChars_led {k : Nat} {r : List Char} :
    atofQ (natChars k ++ r) = atofMag (natChars k ++ r) := by
  obtain ⟨c, rest, hn, hspace, hminus, hplus⟩ := natChars_head_facts k
  have hcons : natChars k ++ r = c :: (rest ++ r) := by rw [hn]; rfl
  simp only [atofQ]
  rw [hcons, skipSpaces_cons_not_space hspace, takeSign_not_sign hminus hplus,
    ← hcons]
  simp

theorem atofQ_intChars (m : ℤ) : atofQ (intChars m) = (m : ℚ) := by
  by_cases hm : m < 0
  · have hrepr : intChars m = '-' :: natChars m.natAbs := by
      simp [intChars, hm]
    simp only [atofQ]
    rw [hrepr, skipSpaces_cons_not_space (by decide : isSpaceChar '-' = false)]
    have hsign : takeSign ('-' :: natChars m.natAbs)
        = (true, natChars m.natAbs) := by simp [takeSign]
    rw [hsign]
    simp only [atofMag_natChars]
    have habs : ((m.natAbs : ℚ)) = -(m : ℚ) := by
      rw [natAbs_cast_q, abs_of_neg (by exact_mod_cast hm : (m : ℚ) < 0)]
    simp [habs]
  · have hrepr : intChars m = natChars m.natAbs := by
      simp [intChars, hm]
    rw [hrepr]
    have hled := atofQ_natChars_led (k := m.natAbs) (r := [])
    simp only [List.append_nil] at hled
    rw [hled, atofMag_natChars, natAbs_cast_q,
      abs_of_nonneg (by exact_mod_cast not_lt.1 hm : (0 : ℚ) ≤ (m : ℚ))]

theorem roundHalfEven_den_one {p : ℚ} (hp : p.den = 1) :
    roundHalfEven p = p.num := by
  have hnum : (p.num : ℚ) = p := Rat.coe_int_num_of_den_eq_one hp
  have hfloor : p.floor = p.num := by
    unfold Rat.floor
    simp [hp]
  simp only [roundHalfEven, hfloor, hnum]
  norm_num

theorem natAbs_centi_split (m : ℤ) :
    ((m.natAbs / 100 : Nat) : ℚ) + ((m.natAbs % 100 : Nat) : ℚ) / 100
      = ((m.natAbs : Nat) : ℚ) / 100 := by
  have hsplit : (m.natAbs / 100) * 100 + m.natAbs % 100 = m.natAbs := by omega
  field_simp
  exact_mod_cast congrArg (fun n : Nat => (n : ℚ)) hsplit

theorem atofQ_of_takeSign {s rest : List Char} {neg : Bool}
    (h : takeSign (skipSpaces s) = (neg, rest)) :
    atofQ s = if neg then -atofMag rest else atofMag rest := by
  simp [atofQ, h]

theorem atofQ_formatF2 {q : ℚ} (hq : (q * 100).den = 1) :
    atofQ (formatF2 q) = q := by
  have hnum : ((q * 100).num : ℚ) = q * 100 := Rat.coe_int_num_of_den_eq_one hq
  have hrhe : roundHalfEven (q * 100) = (q * 100).num := roundHalfEven_den_one hq
  have hmod : (q * 100).num.natAbs % 100 < 100 := Nat.mod_lt _ (by omega)
  have hmag : atofMag (natChars ((q * 100).num.natAbs / 100)
        ++ '.' :: pad2 ((q * 100).num.natAbs % 100)) = |q * 100| / 100 := by
    rw [atofMag_natChars_frac hmod, natAbs_centi_split, natAbs_cast_q, hnum]
  by_cases hneg : (q * 100).num < 0
  · have hrepr : formatF2 q
        = '-' :: (natChars ((q * 100).num.natAbs / 100)
            ++ '.' :: pad2 ((q * 100).num.natAbs % 100)) := by
      simp only [formatF2, hrhe]
      rw [if_pos hneg]
    have hts : takeSign (skipSpaces (formatF2 q))
        = (true, natChars ((q * 100).num.natAbs / 100)
            ++ '.' :: pad2 ((q * 100).num.natAbs % 100)) := by
      rw [hrepr, skipSpaces_cons_not_space (by decide : isSpaceChar '-' = false)]
      simp [takeSign]
    rw [atofQ_of_takeSign hts, if_pos rfl, hmag]
    have hlt : q * 100 < 0 := by
      rw [← hnum]
      exact_mod_cast hneg
    rw [abs_of_neg hlt]
    ring
  · have hrepr : formatF2 q
        = natChars ((q * 100).num.natAbs / 100)
            ++ '.' :: pad2 ((q * 100).num.natAbs % 100) := by
      simp only [formatF2, hrhe]
      rw [if_neg hneg]
    rw [hrepr, atofQ_natChars_led, hmag]
    have hge : 0 ≤ q * 100 := by
      rw [← hnum]
      exact_mod_cast not_lt.1 hneg
    rw [abs_of_nonneg hge]
    ring

/-! ### Shape facts about encoded fields -/

theorem comma_notin_natChars (n : Nat) : ',' ∉ natChars n := by
  intro hc
  obtain ⟨d, hd, heq⟩ := natChars_digits _ hc
  exact (digitChar_spec hd).2.2.2.2.2.1 heq.symm

theorem comma_notin_intChars (m : ℤ) : ',' ∉ intChars m := by
  intro hc
  unfold intChars at hc
  by_cases hm : m < 0
  · rw [if_pos hm] at hc
    rcases List.mem_cons.1 hc with h | h
    · exact absurd h (by decide)
    · exact comma_notin_natChars _ h
  · rw [if_neg hm] at hc
    exact comma_notin_natChars _ hc

theorem intChars_ne_nil (m : ℤ) : intChars m ≠ [] := by
  unfold intChars
  by_cases hm : m < 0
  · simp [hm]
  · simp [hm, natChars_ne_nil]

theorem comma_notin_pad2 {b : Nat} (hb : b < 100) : ',' ∉ pad2 b := by
  intro hc
  have h1 : b / 10 < 10 := by omega
  have h2 : b % 10 < 10 := Nat.mod_lt _ (by omega)
  rcases List.mem_cons.1 hc with h | h
  · exact (digitChar_spec h1).2.2.2.2.2.1 h.symm
  · have : (',' : Char) = digitChar (b % 10) := by simpa using h
    exact (digitChar_spec h2).2.2.2.2.2.1 this.symm

theorem comma_notin_formatF2 (q : ℚ) : ',' ∉ formatF2 q := by
  intro hc
  simp only [formatF2] at hc
  have hmod : (roundHalfEven (q * 100)).natAbs % 100 < 100 := Nat.mod_lt _ (by omega)
  have hcore : ',' ∉ natChars ((roundHalfEven (q * 100)).natAbs / 100)
      ++ '.' :: pad2 ((roundHalfEven (q * 100)).natAbs % 100) := by
    intro h
    rcases List.mem_append.1 h with h | h
    · exact comma_notin_natChars _ h
    · rcases List.mem_cons.1 h with h | h
      · exact absurd h (by decide)
      · exact comma_notin_pad2 hmod h
  by_cases hneg : roundHalfEven (q * 100) < 0
  · rw [if_pos hneg] at hc
    rcases List.mem_cons.1 hc with h | h
    · exact absurd h (by decide)
    · exact hcore h
  · rw [if_neg hneg] at hc
    exact hcore hc

theorem formatF2_ne_nil (q : ℚ) : formatF2 q ≠ [] := by
  simp only [formatF2]
  by_cases hneg : roundHalfEven (q * 100) < 0
  · simp [hneg]
  · simp [hneg, natChars_ne_nil]

/-! ### Tokenizing an encoded record -/

theorem tokenize_encodeBoat {b : Boat}
    (hn1 : b.name ≠ []) (hn2 : ',' ∉ b.name)
    (hv1 : encodeLocationValue b.location ≠ [])
    (hv2 : ',' ∉ encodeLocationValue b.location) :
    tokenize (encodeBoat b)
      = [b.name, formatF0 b.length, locationTypeToString b.location,
         encodeLocationValue b.location, formatF2 b.amountOwed] := by
  have hkw1 : locationTypeToString b.location ≠ [] := by
    cases b.location <;> simp [locationTypeToString, slipKw, landKw, trailorKw, storageKw]
  have hkw2 : ',' ∉ locationTypeToString b.location := by
    cases b.location <;> simp [locationTypeToString, slipKw, landKw, trailorKw, storageKw]
  have hf0c : ',' ∉ formatF0 b.length := comma_notin_intChars _
  have hf0n : formatF0 b.length ≠ [] := intChars_ne_nil _
  unfold encodeBoat
  rw [tokenize_append _ hn2 hn1,
    tokenize_append _ hf0c hf0n,
    tokenize_append _ hkw2 hkw1,
    tokenize_append _ hv2 hv1,
    tokenize_single (comma_notin_formatF2 _) (formatF2_ne_nil _)]

/-! ### Inversion of the token parser -/

theorem parseLoc_inv {eqKw : List Char → List Char → Bool} {t : List Char}
    {rest2 rest3 : List (List Char)} {loc : Location}
    (h : parseLoc eqKw t rest2 = some (loc, rest3)) :
    ∃ v, rest2 = v :: rest3 ∧
      ((loc = .slip (atoiZ v)) ∨
       (∃ c vr, v = c :: vr ∧ loc = .land c) ∨
       (loc = .trailor (v.take 9)) ∨
       (loc = .storage (atoiZ v))) := by
  unfold parseLoc at h
  split_ifs at h
  · rcases rest2 with _ | ⟨v, r3⟩
    · simp at h
    · simp only [Option.some.injEq, Prod.mk.injEq] at h
      refine ⟨v, ?_, Or.inl h.1.symm⟩
      rw [h.2]
  · rcases rest2 with _ | ⟨v, r3⟩
    · simp at h
    · rcases v with _ | ⟨c, vr⟩
      · simp at h
      · simp only [Option.some.injEq, Prod.mk.injEq] at h
        refine ⟨c :: vr, ?_, Or.inr (Or.inl ⟨c, vr, rfl, h.1.symm⟩)⟩
        rw [h.2]
  · rcases rest2 with _ | ⟨v, r3⟩
    · simp at h
    · simp only [Option.some.injEq, Prod.mk.injEq] at h
      refine ⟨v, ?_, Or.inr (Or.inr (Or.inl h.1.symm))⟩
      rw [h.2]
  · rcases rest2 with _ | ⟨v, r3⟩
    · simp at h
    · simp only [Option.some.injEq, Prod.mk.injEq] at h
      refine ⟨v, ?_, Or.inr (Or.inr (Or.inr h.1.symm))⟩
      rw [h.2]

theorem parseBoatTokens_inv {eqKw : List Char → List Char → Bool}
    {toks : List (List Char)} {b : Boat}
    (h : parseBoatTokens eqKw toks = some b) :
    ∃ n l t v a rest, toks = n :: l :: t :: v :: a :: rest ∧
      b.name = n.take (MAX_NAME_LENGTH - 1) ∧ b.length = atofQ l ∧
      b.amountOwed = atofQ a ∧
      ((b.location = .slip (atoiZ v)) ∨
       (∃ c vr, v = c :: vr ∧ b.location = .land c) ∨
       (b.location = .trailor (v.take 9)) ∨
       (b.location = .storage (atoiZ v))) := by
  rcases toks with _ | ⟨n, _ | ⟨l, _ | ⟨t, rest2⟩⟩⟩
  · simp [parseBoatTokens] at h
  · simp [parseBoatTokens] at h
  · simp [parseBoatTokens] at h
  · simp only [parseBoatTokens] at h
    rcases hp : parseLoc eqKw t rest2 with _ | ⟨loc, rest3⟩
    · rw [hp] at h
      simp at h
    · rw [hp] at h
      rcases rest3 with _ | ⟨a, rest4⟩
      · simp at h
      · simp only [Option.some.injEq] at h
        obtain ⟨v, hrest2, hcases⟩ := parseLoc_inv hp
        subst hrest2
        refine ⟨n, l, t, v, a, rest4, rfl, ?_, ?_, ?_, ?_⟩
        · rw [← h]
        · rw [← h]
        · rw [← h]
        · rw [← h]
          exact hcases

theorem loadDecode_encodable {L : List Char} {b : Boat}
    (h : loadDecode L = some b) : encodable b := by
  unfold loadDecode at h
  obtain ⟨n, l, t, v, a, rest, htoks, hname, _, _, hloc⟩ := parseBoatTokens_inv h
  have hn : n ∈ tokenize L := by rw [htoks]; simp
  have hv : v ∈ tokenize L := by rw [htoks]; simp
  obtain ⟨hn1, hn2⟩ := mem_tokenize hn
  obtain ⟨hv1, hv2⟩ := mem_tokenize hv
  have hname1 : b.name ≠ [] := by
    rw [hname]
    rcases n with _ | ⟨c, cs⟩
    · exact absurd rfl hn1
    · simp [MAX_NAME_LENGTH]
  have hname2 : ',' ∉ b.name := by
    rw [hname]
    intro hmem
    exact hn2 (List.take_subset _ _ hmem)
  have hname3 : b.name.length ≤ MAX_NAME_LENGTH - 1 := by
    rw [hname]
    exact n.length_take_le _
  refine ⟨hname1, hname2, hname3, ?_⟩
  rcases hloc with hl | ⟨c, vr, hveq, hl⟩ | hl | hl <;> rw [hl]
  · trivial
  · subst hveq
    intro hcomma
    exact hv2 (hcomma ▸ List.mem_cons_self c vr)
  · refine ⟨?_, ?_, ?_⟩
    · rcases v with _ | ⟨c, cs⟩
      · exact absurd rfl hv1
      · simp
    · intro hmem
      exact hv2 (List.take_subset _ _ hmem)
    · exact v.length_take_le _
  · trivial

theorem loadDecode_encodeBoat {b : Boat} (hb : encodable b)
    (hlen : b.length.den = 1) (hamt : (b.amountOwed * 100).den = 1) :
    loadDecode (encodeBoat b) = some b := by
  obtain ⟨hn1, hn2, hn3, hlocwf⟩ := hb
  have hv1 : encodeLocationValue b.location ≠ [] := by
    rcases hL : b.location with sn | c | tt | sn <;>
      simp only [encodeLocationValue]
    · exact intChars_ne_nil _
    · simp
    · rw [hL] at hlocwf
      exact hlocwf.1
    · exact intChars_ne_nil _
  have hv2 : ',' ∉ encodeLocationValue b.location := by
    rcases hL : b.location with sn | c | tt | sn <;>
      simp only [encodeLocationValue]
    · exact comma_notin_intChars _
    · rw [hL] at hlocwf
      simp [hlocwf]
      intro heq
      exact hlocwf heq.symm
    · rw [hL] at hlocwf
      exact hlocwf.2.1
    · exact comma_notin_intChars _
  unfold loadDecode
  rw [tokenize_encodeBoat hn1 hn2 hv1 hv2]
  have hlenq : atofQ (formatF0 b.length) = b.length := by
    unfold formatF0
    rw [roundHalfEven_den_one hlen, atofQ_intChars,
      Rat.coe_int_num_of_den_eq_one hlen]
  have hamtq : atofQ (formatF2 b.amountOwed) = b.amountOwed := atofQ_formatF2 hamt
  have hntake : b.name.take (MAX_NAME_LENGTH - 1) = b.name :=
    List.take_of_length_le hn3
  rcases hL : b.location with sn | c | tt | sn
  · simp only [hL, locationTypeToString, encodeLocationValue, parseBoatTokens]
    have hploc : parseLoc strEq slipKw [intChars sn, formatF2 b.amountOwed]
        = some (.slip (atoiZ (intChars sn)), [formatF2 b.amountOwed]) := by
      unfold parseLoc
      rw [if_pos (by simp [strEq])]
    rw [hploc]
    simp only [Option.some.injEq]
    rcases b with ⟨bn, bl, bloc, bo⟩
    simp only at hL hlenq hamtq hntake ⊢
    simp [hL, hntake, hlenq, hamtq, atoiZ_intChars]
  · simp only [hL, locationTypeToString, encodeLocationValue, parseBoatTokens]
    have hploc : parseLoc strEq landKw [[c], formatF2 b.amountOwed]
        = some (.land c, [formatF2 b.amountOwed]) := by
      unfold parseLoc
      rw [if_neg (by simp [strEq, landKw, slipKw]), if_pos (by simp [strEq])]
    rw [hploc]
    simp only [Option.some.injEq]
    rcases b with ⟨bn, bl, bloc, bo⟩
    simp only at hL hlenq hamtq hntake ⊢
    simp [hL, hntake, hlenq, hamtq]
  · have htake9 : tt.take 9 = tt := by
      rw [hL] at hlocwf
      exact List.take_of_length_le hlocwf.2.2
    simp only [hL, locationTypeToString, encodeLocationValue, parseBoatTokens]
    have hploc : parseLoc strEq trailorKw [tt, formatF2 b.amountOwed]
        = some (.trailor (tt.take 9), [formatF2 b.amountOwed]) := by
      unfold parseLoc
      rw [if_neg (by simp [strEq, trailorKw, slipKw]),
        if_neg (by simp [strEq, trailorKw, landKw]),
        if_pos (by simp [strEq])]
    rw [hploc]
    simp only [Option.some.injEq]
    rcases b with ⟨bn, bl, bloc, bo⟩
    simp only at hL hlenq hamtq hntake htake9 ⊢
    simp [hL, hntake, hlenq, hamtq, htake9]
  · simp only [hL, locationTypeToString, encodeLocationValue, parseBoatTokens]
    have hploc : parseLoc strEq storageKw [intChars sn, formatF2 b.amountOwed]
        = some (.storage (atoiZ (intChars sn)), [formatF2 b.amountOwed]) := by
      unfold parseLoc
      rw [if_neg (by simp [strEq, storageKw, slipKw]),
        if_neg (by simp [strEq, storageKw, landKw]),
        if_neg (by simp [strEq, storageKw, trailorKw]),
        if_pos (by simp [strEq])]
    rw [hploc]
    simp only [Option.some.injEq]
    rcases b with ⟨bn, bl, bloc, bo⟩
    simp only at hL hlenq hamtq hntake ⊢
    simp [hL, hntake, hlenq, hamtq, atoiZ_intChars]

/-! ### Success criterion of the token parser -/

theorem parseBoatTokens_isSome_iff {eqKw : List Char → List Char → Bool}
    (n l t v a : List Char) (rest : List (List Char)) (hv : v ≠ []) :
    (parseBoatTokens eqKw (n :: l :: t :: v :: a :: rest)).isSome = true ↔
      (eqKw t slipKw = true ∨ eqKw t landKw = true ∨
       eqKw t trailorKw = true ∨ eqKw t storageKw = true) := by
  rcases v with _ | ⟨c, vr⟩
  · exact absurd rfl hv
  · simp only [parseBoatTokens]
    unfold parseLoc
    by_cases h1 : eqKw t slipKw <;> by_cases h2 : eqKw t landKw <;>
      by_cases h3 : eqKw t trailorKw <;> by_cases h4 : eqKw t storageKw <;>
      simp [h1, h2, h3, h4]

theorem strCaseEq_iff_map (t kw : List Char) (hkw : kw.map lowerChar = kw) :
    strCaseEq t kw = true ↔ t.map lowerChar = kw := by
  unfold strCaseEq
  rw [hkw, beq_iff_eq]

/-! ### Claim C1 -/

/-- C1 counterexample: `A,10,Slip,3,0` has all five fields present and its
third field equals the keyword `slip` up to letter case, yet the
`loadBoatData` decoder rejects it (it compares with `strcmp`, so only the
exact lowercase spelling matches), while the `addBoat` decoder accepts the
same line — contradicting the claim that both paths match the keyword
case-insensitively. -/
theorem claim_C1_counterexample :
    loadDecode ("A,10,Slip,3,0".toList) = none ∧
    (addDecode ("A,10,Slip,3,0".toList)).isSome = true := by
  constructor
  · decide
  · decide

/-- C1 (amended): only the interactive `addBoat` decoder matches the
locationType keyword case-insensitively against slip/land/trailor/storage;
the `loadBoatData` decoder matches it case-sensitively, accepting exactly
the lowercase spellings.  For any token stream with the five fields present
(the location-value token nonempty, as `strtok_r` guarantees), the add
parser succeeds iff the lowercased keyword is in the set and the load
parser succeeds iff the keyword is literally in the set. -/
theorem claim_C1_keyword_matching (n l t v a : List Char)
    (rest : List (List Char)) (hv : v ≠ []) :
    ((parseBoatTokens strCaseEq (n :: l :: t :: v :: a :: rest)).isSome = true ↔
      (t.map lowerChar = slipKw ∨ t.map lowerChar = landKw ∨
       t.map lowerChar = trailorKw ∨ t.map lowerChar = storageKw)) ∧
    ((parseBoatTokens strEq (n :: l :: t :: v :: a :: rest)).isSome = true ↔
      (t = slipKw ∨ t = landKw ∨ t = trailorKw ∨ t = storageKw)) := by
  constructor
  · rw [parseBoatTokens_isSome_iff n l t v a rest hv,
      strCaseEq_iff_map t slipKw (by decide),
      strCaseEq_iff_map t landKw (by decide),
      strCaseEq_iff_map t trailorKw (by decide),
      strCaseEq_iff_map t storageKw (by decide)]
  · rw [parseBoatTokens_isSome_iff n l t v a rest hv]
    unfold strEq
    rw [beq_iff_eq, beq_iff_eq, beq_iff_eq, beq_iff_eq]

/-- Witness for C1: concrete instantiation at the tokens of
`Jo,20,SLIP,4,5.00` (accepted by add, rejected by load) and at
`Jo,20,slip,4,5.00` (accepted by both). -/
theorem claim_C1_witness :
    (parseBoatTokens strCaseEq
      ["Jo".toList, "20".toList, "SLIP".toList, "4".toList, "5.00".toList]).isSome
        = true ∧
    (parseBoatTokens strEq
      ["Jo".toList, "20".toList, "SLIP".toList, "4".toList, "5.00".toList]).isSome
        = false ∧
    (parseBoatTokens strEq
      ["Jo".toList, "20".toList, "slip".toList, "4".toList, "5.00".toList]).isSome
        = true := by
  refine ⟨?_, ?_, ?_⟩
  · exact (claim_C1_keyword_matching "Jo".toList "20".toList "SLIP".toList
      "4".toList "5.00".toList [] (by decide)).1.2 (by decide)
  · have h := (claim_C1_keyword_matching "Jo".toList "20".toList "SLIP".toList
      "4".toList "5.00".toList [] (by decide)).2
    by_contra hc
    simp only [Bool.not_eq_false] at hc
    exact absurd (h.1 hc) (by decide)
  · exact (claim_C1_keyword_matching "Jo".toList "20".toList "slip".toList
      "4".toList "5.00".toList [] (by decide)).2.2 (by decide)

/-! ### Claim C2 -/

/-- C2 counterexample: `A,10.2,slip,3,0.00` is a valid 5-field CSV line,
but decode–encode–decode does not reproduce the first decode: the decoded
length 10.2 is written back by `%.0f` as `10`, so the second decode differs
from the first. -/
theorem claim_C2_counterexample :
    (loadDecode ("A,10.2,slip,3,0.00".toList)).bind
        (fun b => loadDecode (encodeBoat b))
      ≠ loadDecode ("A,10.2,slip,3,0.00".toList) := by
  decide

/-- C2 (amended): for every CSV line `L` accepted by the decoder whose
decoded record has an integral length and an amount owed that is a whole
number of cents, re-encoding and decoding reproduces the record exactly
(`decode (encode (decode L)) = decode L`); equivalently
`decode (encode b) = some b` for every such decodable record.  The length
rounding by `%.0f` (and the rounding of the amount to two decimals by
`%.2f`) are the only lossy steps. -/
theorem claim_C2_roundtrip (L : List Char) (b : Boat)
    (hdec : loadDecode L = some b) (hlen : b.length.den = 1)
    (hamt : (b.amountOwed * 100).den = 1) :
    loadDecode (encodeBoat b) = some b ∧
    (loadDecode L).bind (fun b2 => loadDecode (encodeBoat b2)) = loadDecode L := by
  have h1 := loadDecode_encodeBoat (loadDecode_encodable hdec) hlen hamt
  refine ⟨h1, ?_⟩
  rw [hdec]
  simpa using h1

/-- Witness for C2: the line `Alice,20,slip,5,100.00` decodes to a record
with integral length and whole-cent balance, and the round trip reproduces
it. -/
theorem claim_C2_witness :
    loadDecode ("Alice,20,slip,5,100.00".toList)
      = some ⟨"Alice".toList, 20, .slip 5, 100⟩ ∧
    loadDecode (encodeBoat ⟨"Alice".toList, 20, .slip 5, 100⟩)
      = some ⟨"Alice".toList, 20, .slip 5, 100⟩ := by
  have hdec : loadDecode ("Alice,20,slip,5,100.00".toList)
      = some ⟨"Alice".toList, 20, .slip 5, 100⟩ := by decide
  exact ⟨hdec,
    (claim_C2_roundtrip _ _ hdec (by decide) (by decide)).1⟩

/-! ### Lookup specification -/

theorem findBoatByName_none_iff (boats : List Boat) (name : List Char) :
    findBoatByName boats name = none ↔
      ∀ b ∈ boats, strCaseEq b.name name = false := by
  induction boats with
  | nil => simp [findBoatByName]
  | cons b bs ih =>
    unfold findBoatByName
    by_cases hb : strCaseEq b.name name = true
    · simp [hb]
    · rw [if_neg hb]
      simp only [Option.map_eq_none', List.mem_cons]
      rw [ih]
      constructor
      · intro h x hx
        rcases hx with rfl | hx
        · exact Bool.eq_false_iff.2 hb
        · exact h x hx
      · intro h x hx
        exact h x (Or.inr hx)

theorem findBoatByName_some {boats : List Boat} {name : List Char} {i : Nat}
    (h : findBoatByName boats name = some i) :
    ∃ b, boats[i]? = some b ∧ strCaseEq b.name name = true ∧
      ∀ j bj, j < i → boats[j]? = some bj → strCaseEq bj.name name = false := by
  induction boats generalizing i with
  | nil => simp [findBoatByName] at h
  | cons b bs ih =>
    unfold findBoatByName at h
    by_cases hb : strCaseEq b.name name
    · rw [if_pos hb] at h
      have hi : i = 0 := (Option.some.inj h).symm
      subst hi
      exact ⟨b, by simp, hb, fun j bj hj _ => absurd hj (Nat.not_lt_zero j)⟩
    · rw [if_neg hb] at h
      rcases hrec : findBoatByName bs name with _ | i0
      · rw [hrec] at h
        simp at h
      · rw [hrec] at h
        simp only [Option.map_some'] at h
        have hi : i = i0 + 1 := (Option.some.inj h).symm
        subst hi
        obtain ⟨b0, hget, hmatch, hfirst⟩ := ih hrec
        refine ⟨b0, by simpa using hget, hmatch, ?_⟩
        intro j bj hj hgetj
        cases j with
        | zero =>
          have hbj : b = bj := by simpa using hgetj
          subst hbj
          exact Bool.eq_false_iff.2 hb
        | succ j0 =>
          have hj0 : j0 < i0 := by omega
          exact hfirst j0 bj hj0 (by simpa using hgetj)

/-! ### Claim C3 -/

/-- C3: `updateMonthlyCharges` adds exactly `length * rate[locationType]`
(Slip 12.50, Land 14.00, Trailor 25.00, Storage 11.20 per foot) to every
record's `amountOwed` and changes nothing else (same list length, every
entry keeps its name, length and location); concretely a Slip boat of
length 30 gains exactly 375.00, Land 10 gains 140.00, Trailor 16 gains
400.00 and Storage 20 gains 224.00. -/
theorem claim_C3_monthly_charges :
    (∀ (boats : List Boat) (i : Nat) (b : Boat), boats[i]? = some b →
      (updateMonthlyCharges boats)[i]?
        = some { b with amountOwed := b.amountOwed + b.length * ratePerFoot b.location }) ∧
    (∀ boats : List Boat, (updateMonthlyCharges boats).length = boats.length) ∧
    updateMonthlyCharges [⟨"A".toList, 30, .slip 1, 100⟩]
      = [⟨"A".toList, 30, .slip 1, 475⟩] ∧
    updateMonthlyCharges [⟨"B".toList, 10, .land 'A', 7⟩]
      = [⟨"B".toList, 10, .land 'A', 147⟩] ∧
    updateMonthlyCharges [⟨"C".toList, 16, .trailor "TX1".toList, 0⟩]
      = [⟨"C".toList, 16, .trailor "TX1".toList, 400⟩] ∧
    updateMonthlyCharges [⟨"D".toList, 20, .storage 2, 1⟩]
      = [⟨"D".toList, 20, .storage 2, 225⟩] := by
  refine ⟨?_, ?_, by decide, by decide, by decide, by decide⟩
  · intro boats i b hget
    unfold updateMonthlyCharges
    rw [List.getElem?_map, hget]
    have hcharge : monthlyCharge b = b.length * ratePerFoot b.location := by
      unfold monthlyCharge ratePerFoot
      cases b.location <;> rfl
    simp [hcharge]
  · intro boats
    unfold updateMonthlyCharges
    exact List.length_map boats _

/-- Witness for C3: the per-record description applied to a concrete
one-boat collection. -/
theorem claim_C3_witness :
    (updateMonthlyCharges [⟨"E".toList, 12, .slip 9, 50⟩])[0]?
      = some ⟨"E".toList, 12, .slip 9, 50 + 12 * ratePerFoot (.slip 9)⟩ :=
  claim_C3_monthly_charges.1 [⟨"E".toList, 12, .slip 9, 50⟩] 0
    ⟨"E".toList, 12, .slip 9, 50⟩ rfl

/-! ### Claim C4 -/

/-- C4: `acceptPayment` on a boat found by case-insensitive name: a payment
exceeding the current balance is rejected with no change to any record;
otherwise the amount is subtracted from that boat's balance and no other
entry changes; a payment equal to the balance leaves exactly 0. -/
theorem claim_C4_accept_payment (boats : List Boat) (name : List Char)
    (amt : ℚ) (i : Nat) (b : Boat)
    (hfind : findBoatByName boats name = some i) (hget : boats[i]? = some b) :
    (b.amountOwed < amt → acceptPayment boats name amt = boats) ∧
    (¬ b.amountOwed < amt →
      acceptPayment boats name amt
        = boats.set i { b with amountOwed := b.amountOwed - amt } ∧
      ∀ j, j ≠ i → (acceptPayment boats name amt)[j]? = boats[j]?) ∧
    (amt = b.amountOwed →
      (acceptPayment boats name amt)[i]? = some { b with amountOwed := 0 }) := by
  have hlt : i < boats.length := by
    rcases List.getElem?_eq_some.1 hget with ⟨h, _⟩
    exact h
  unfold acceptPayment
  simp only [hfind, hget]
  refine ⟨fun h => by rw [if_pos h], fun h => ?_, fun h => ?_⟩
  · rw [if_neg h]
    exact ⟨rfl, fun j hj => List.getElem?_set_ne (fun he => hj he.symm)⟩
  · have hnl : ¬ b.amountOwed < amt := by rw [h]; exact lt_irrefl _
    rw [if_neg hnl, List.getElem?_set_self (by simpa using hlt)]
    rw [h]
    simp

/-- Witness for C4: a two-boat collection where `bob` is found
case-insensitively at index 1; paying the full balance 50 leaves exactly 0,
and an overpayment of 51 is rejected unchanged. -/
theorem claim_C4_witness :
    (acceptPayment
        [⟨"Alice".toList, 20, .slip 5, 100⟩, ⟨"Bob".toList, 15, .land 'B', 50⟩]
        "bob".toList 50)[1]?
      = some ⟨"Bob".toList, 15, .land 'B', 0⟩ ∧
    acceptPayment
        [⟨"Alice".toList, 20, .slip 5, 100⟩, ⟨"Bob".toList, 15, .land 'B', 50⟩]
        "bob".toList 51
      = [⟨"Alice".toList, 20, .slip 5, 100⟩, ⟨"Bob".toList, 15, .land 'B', 50⟩] := by
  constructor
  · exact (claim_C4_accept_payment
      [⟨"Alice".toList, 20, .slip 5, 100⟩, ⟨"Bob".toList, 15, .land 'B', 50⟩]
      "bob".toList 50 1 ⟨"Bob".toList, 15, .land 'B', 50⟩
      (by decide) rfl).2.2 (by decide)
  · exact (claim_C4_accept_payment
      [⟨"Alice".toList, 20, .slip 5, 100⟩, ⟨"Bob".toList, 15, .land 'B', 50⟩]
      "bob".toList 51 1 ⟨"Bob".toList, 15, .land 'B', 50⟩
      (by decide) rfl).1 (by decide)

/-! ### Claim C10 -/

/-- C10: for a boat with a nonnegative balance, a negative payment amount
passes the only validity check (`payment > amountOwed`) and is accepted:
the subtraction strictly increases the boat's balance; negative payments
are never rejected. -/
theorem claim_C10_negative_payment (boats : List Boat) (name : List Char)
    (amt : ℚ) (i : Nat) (b : Boat)
    (hfind : findBoatByName boats name = some i) (hget : boats[i]? = some b)
    (hpos : 0 ≤ b.amountOwed) (hneg : amt < 0) :
    acceptPayment boats name amt
      = boats.set i { b with amountOwed := b.amountOwed - amt } ∧
    b.amountOwed < b.amountOwed - amt := by
  have hnl : ¬ b.amountOwed < amt := not_lt.2 (le_trans (le_of_lt hneg) hpos)
  unfold acceptPayment
  simp only [hfind, hget, if_neg hnl]
  refine ⟨trivial, ?_⟩
  linarith

/-- Witness for C10: paying −25 on a zero balance is accepted and raises
the balance to 25. -/
theorem claim_C10_witness :
    acceptPayment [⟨"Ann".toList, 10, .storage 3, 0⟩] "ANN".toList (-25)
      = [⟨"Ann".toList, 10, .storage 3, 0 - -25⟩] ∧
    (0 : ℚ) < 0 - (-25 : ℚ) := by
  have h := claim_C10_negative_payment [⟨"Ann".toList, 10, .storage 3, 0⟩]
    "ANN".toList (-25) 0 ⟨"Ann".toList, 10, .storage 3, 0⟩
    (by decide) rfl (by norm_num) (by norm_num)
  exact ⟨h.1, h.2⟩

/-! ### Claim C7 -/

/-- C7: `removeBoat` does a case-insensitive first-match lookup: when no
boat matches, the collection is completely unchanged (and indeed no record
matches); when index `i` is the first match, exactly that record is deleted
and the remaining records are compacted preserving their relative order
(the result is the prefix before `i` followed by the suffix after `i`). -/
theorem claim_C7_remove (boats : List Boat) (name : List Char) :
    (findBoatByName boats name = none →
      removeBoat boats name = boats ∧
      ∀ b ∈ boats, strCaseEq b.name name = false) ∧
    (∀ i, findBoatByName boats name = some i →
      (∃ b, boats[i]? = some b ∧ strCaseEq b.name name = true ∧
        ∀ j bj, j < i → boats[j]? = some bj → strCaseEq bj.name name = false) ∧
      removeBoat boats name = boats.take i ++ boats.drop (i + 1)) := by
  constructor
  · intro h
    refine ⟨?_, (findBoatByName_none_iff boats name).1 h⟩
    unfold removeBoat
    simp [h]
  · intro i h
    refine ⟨findBoatByName_some h, ?_⟩
    unfold removeBoat
    simp only [h]
    exact List.eraseIdx_eq_take_drop_succ boats i

/-- Witness for C7: removing `BOB` from a two-boat collection deletes the
record at index 1 and keeps Alice; removing `carol` changes nothing. -/
theorem claim_C7_witness :
    removeBoat [⟨"Alice".toList, 20, .slip 5, 100⟩, ⟨"Bob".toList, 15, .land 'B', 50⟩]
        "BOB".toList
      = [⟨"Alice".toList, 20, .slip 5, 100⟩] ∧
    removeBoat [⟨"Alice".toList, 20, .slip 5, 100⟩, ⟨"Bob".toList, 15, .land 'B', 50⟩]
        "carol".toList
      = [⟨"Alice".toList, 20, .slip 5, 100⟩, ⟨"Bob".toList, 15, .land 'B', 50⟩] := by
  constructor
  · have h := (claim_C7_remove
      [⟨"Alice".toList, 20, .slip 5, 100⟩, ⟨"Bob".toList, 15, .land 'B', 50⟩]
      "BOB".toList).2 1 (by decide)
    rw [h.2]
    rfl
  · exact ((claim_C7_remove
      [⟨"Alice".toList, 20, .slip 5, 100⟩, ⟨"Bob".toList, 15, .land 'B', 50⟩]
      "carol".toList).1 (by decide)).1

/-! ### Claim C6 -/

theorem parseBoatTokens_of_short {eqKw : List Char → List Char → Bool}
    {toks : List (List Char)} (h : toks.length < 5) :
    parseBoatTokens eqKw toks = none := by
  rcases toks with _ | ⟨n, _ | ⟨l, _ | ⟨t, rest2⟩⟩⟩
  · rfl
  · rfl
  · rfl
  · simp only [parseBoatTokens]
    rcases hp : parseLoc eqKw t rest2 with _ | ⟨loc, rest3⟩
    · simp
    · obtain ⟨v, hrest2, _⟩ := parseLoc_inv hp
      rcases rest3 with _ | ⟨a, r⟩
      · simp
      · exfalso
        rw [hrest2] at h
        simp only [List.length_cons] at h
        omega

theorem tokenize_joinFields {fields : List (List Char)}
    (h : ∀ f ∈ fields, ',' ∉ f) :
    tokenize (joinFields fields) = fields.filter (fun f => !f.isEmpty) := by
  induction fields with
  | nil => rfl
  | cons f fs ih =>
    rcases fs with _ | ⟨f2, fs2⟩
    · rw [show joinFields [f] = f from rfl]
      by_cases hf : f = []
      · subst hf
        rfl
      · rw [tokenize_single (h f (List.mem_cons_self f [])) hf]
        have : f.isEmpty = false := by
          cases f with
          | nil => exact absurd rfl hf
          | cons x xs => rfl
        simp [List.filter_cons, this]
    · rw [show joinFields (f :: f2 :: fs2) = f ++ ',' :: joinFields (f2 :: fs2) from rfl]
      have hrest := ih (fun g hg => h g (List.mem_cons_of_mem f hg))
      by_cases hf : f = []
      · subst hf
        simp only [List.nil_append]
        have hskip : tokenize (',' :: joinFields (f2 :: fs2))
            = tokenize (joinFields (f2 :: fs2)) := by
          unfold tokenize
          have : rawFields (',' :: joinFields (f2 :: fs2))
              = [] :: rawFields (joinFields (f2 :: fs2)) := by
            simp [rawFields]
          rw [this, List.filter_cons]
          simp
        rw [hskip, hrest]
        simp [List.filter_cons]
      · rw [tokenize_append _ (h f (List.mem_cons_self f _)) hf, hrest]
        have : f.isEmpty = false := by
          cases f with
          | nil => exact absurd rfl hf
          | cons x xs => rfl
        simp [List.filter_cons, this]

/-- C6: a missing or empty field rejects the whole line: joining five
comma-free raw fields one of which is empty (or fewer than five fields)
yields a line both decoders reject; a rejected line leaves `addBoat`'s
collection unchanged and is skipped by the `loadBoatData` reading loop; and
the concrete two-line file with one well-formed line and one line missing
fields loads exactly the one well-formed record. -/
theorem claim_C6_missing_fields :
    (∀ fields : List (List Char), (∀ f ∈ fields, ',' ∉ f) →
      (joinFields fields).length ≤ 255 →
      (fields.length = 5 ∧ [] ∈ fields) ∨ fields.length < 5 →
      loadDecode (joinFields fields) = none ∧
      addDecode (joinFields fields) = none) ∧
    (∀ (boats : List Boat) (line : List Char), addDecode line = none →
      addBoat boats line = boats) ∧
    (∀ (ls : List (List Char)) (acc : List Boat) (line : List Char),
      loadDecode line = none → acc.length < MAX_BOATS →
      loadRaw (line :: ls) acc = loadRaw ls acc) ∧
    loadBoatData ["Alice,20,slip,5,100.00".toList, "Bob,15,land".toList]
      = [⟨"Alice".toList, 20, .slip 5, 100⟩] := by
  refine ⟨?_, ?_, ?_, by decide⟩
  · intro fields hcf h255 hcase
    have htoks : tokenize (joinFields fields)
        = fields.filter (fun f => !f.isEmpty) := tokenize_joinFields hcf
    have hshort : (fields.filter (fun f => !f.isEmpty)).length < 5 := by
      rcases hcase with ⟨h5, hmem⟩ | hlt
      · have hlt2 : (fields.filter (fun f => !f.isEmpty)).length < fields.length :=
          List.length_filter_lt_length_iff_exists.2 ⟨[], hmem, by simp⟩
        omega
      · have := fields.length_filter_le (fun f => !f.isEmpty)
        omega
    constructor
    · unfold loadDecode
      rw [htoks]
      exact parseBoatTokens_of_short hshort
    · unfold addDecode
      rw [List.take_of_length_le h255, htoks]
      exact parseBoatTokens_of_short hshort
  · intro boats line hdec
    unfold addBoat
    by_cases hcap : MAX_BOATS ≤ boats.length
    · rw [if_pos hcap]
    · rw [if_neg hcap]
      simp [hdec]
  · intro ls acc line hdec hlen
    rw [show loadRaw (line :: ls) acc
        = if acc.length < MAX_BOATS then
            (match loadDecode line with
             | some b => loadRaw ls (acc ++ [b])
             | none => loadRaw ls acc)
          else acc from rfl]
    rw [if_pos hlen, hdec]

/-- Witness for C6: the line `Jo,,slip,5,7` (five fields, the second one
empty) is rejected by both decoders and leaves an interactive add with no
state change. -/
theorem claim_C6_witness :
    loadDecode (joinFields ["Jo".toList, [], "slip".toList, "5".toList, "7".toList])
      = none ∧
    addDecode (joinFields ["Jo".toList, [], "slip".toList, "5".toList, "7".toList])
      = none ∧
    addBoat [⟨"Alice".toList, 20, .slip 5, 100⟩]
        (joinFields ["Jo".toList, [], "slip".toList, "5".toList, "7".toList])
      = [⟨"Alice".toList, 20, .slip 5, 100⟩] ∧
    loadRaw [joinFields ["Jo".toList, [], "slip".toList, "5".toList, "7".toList]] []
      = loadRaw [] ([] : List Boat) := by
  have hmain := claim_C6_missing_fields
  have hdec := hmain.1 ["Jo".toList, [], "slip".toList, "5".toList, "7".toList]
    (by decide) (by decide) (Or.inl ⟨rfl, by decide⟩)
  exact ⟨hdec.1, hdec.2,
    hmain.2.1 _ _ hdec.2,
    hmain.2.2.1 [] [] _ hdec.1 (by decide)⟩

/-! ### Claim C9 -/

theorem takeSign_snd_sublist (l : List Char) :
    List.Sublist (takeSign l).2 l := by
  cases l with
  | nil => simp [takeSign]
  | cons c r =>
    simp only [takeSign]
    by_cases h1 : c = '-'
    · rw [if_pos h1]
      exact List.sublist_cons_self c r
    · rw [if_neg h1]
      by_cases h2 : c = '+'
      · rw [if_pos h2]
        exact List.sublist_cons_self c r
      · rw [if_neg h2]

theorem takeWhile_isDigit_nil {l : List Char}
    (h : ∀ c ∈ l, c.isDigit = false) : l.takeWhile Char.isDigit = [] := by
  cases l with
  | nil => rfl
  | cons c r =>
    rw [List.takeWhile_cons]
    simp [h c (List.mem_cons_self c r)]

theorem atofMag_no_digits {s2 : List Char} (h : ∀ c ∈ s2, c.isDigit = false)
    (hsp : strtodSpecial s2 = false) : atofMag s2 = 0 := by
  rw [atofMag_eq_decimal hsp]
  have hip : s2.takeWhile Char.isDigit = [] := takeWhile_isDigit_nil h
  have hdrop : s2.dropWhile Char.isDigit = s2 := by
    cases s2 with
    | nil => rfl
    | cons c r =>
      rw [List.dropWhile_cons]
      simp [h c (List.mem_cons_self c r)]
  rcases hs : s2 with _ | ⟨c, r⟩
  · simp [atofDecimal]
  · rw [hs] at hip hdrop
    simp only [atofDecimal, hip, hdrop]
    by_cases hc : c = '.'
    · have hfp : r.takeWhile Char.isDigit = [] :=
        takeWhile_isDigit_nil (fun x hx => by
          rw [hs] at h
          exact h x (List.mem_cons_of_mem c hx))
      simp [hc, hfp]
    · simp [hc]

/-- C9: numeric fields are parsed permissively.  On text `atof` cannot
convert at all — digit-free and not one of `strtod`'s case-insensitive
INF/INFINITY/NAN keywords after the optional sign (those keywords do
convert, to IEEE values outside the rational model; C99 hex needs a
leading `0` digit, so it cannot be digit-free) — `atof` yields 0 rather
than an error; `atoi`, which knows no keywords, yields 0 on every
digit-free text; and the line decoders never reject a structurally
well-formed line because of the contents of its numeric fields (length,
slip/storage number, amount owed): with all five fields present and a
valid keyword, both decoders succeed no matter what the other tokens hold.
The interactive payment amount goes through the same `atof` (see
`stepCommand`). -/
theorem claim_C9_permissive_numeric :
    (∀ s : List Char, (∀ c ∈ s, c.isDigit = false) →
      strtodSpecial (takeSign (skipSpaces s)).2 = false →
      atofQ s = 0) ∧
    (∀ s : List Char, (∀ c ∈ s, c.isDigit = false) → atoiZ s = 0) ∧
    (∀ (n l v a : List Char) (rest : List (List Char)) (kw : List Char),
      (kw = slipKw ∨ kw = landKw ∨ kw = trailorKw ∨ kw = storageKw) →
      v ≠ [] →
      (parseBoatTokens strEq (n :: l :: kw :: v :: a :: rest)).isSome = true ∧
      (parseBoatTokens strCaseEq (n :: l :: kw :: v :: a :: rest)).isSome = true) := by
  refine ⟨?_, ?_, ?_⟩
  · intro s h hsp
    have hsub : ∀ x ∈ (takeSign (skipSpaces s)).2, x.isDigit = false := by
      intro x hx
      have hx2 : x ∈ skipSpaces s :=
        (takeSign_snd_sublist (skipSpaces s)).subset hx
      have hx3 : x ∈ s := (List.dropWhile_sublist isSpaceChar).subset hx2
      exact h x hx3
    simp only [atofQ, atofMag_no_digits hsub hsp]
    cases (takeSign (skipSpaces s)).1 <;> simp
  · intro s h
    have hsub : ∀ x ∈ (takeSign (skipSpaces s)).2, x.isDigit = false := by
      intro x hx
      have hx2 : x ∈ skipSpaces s :=
        (takeSign_snd_sublist (skipSpaces s)).subset hx
      have hx3 : x ∈ s := (List.dropWhile_sublist isSpaceChar).subset hx2
      exact h x hx3
    simp only [atoiZ, takeWhile_isDigit_nil hsub]
    cases (takeSign (skipSpaces s)).1 <;> simp [digitsToNat]
  · intro n l v a rest kw hkw hv
    have hself : ∀ kw0 : List Char, strEq kw0 kw0 = true := by
      intro kw0
      simp [strEq]
    have hselfc : ∀ kw0 : List Char, strCaseEq kw0 kw0 = true := by
      intro kw0
      simp [strCaseEq]
    constructor
    · rw [parseBoatTokens_isSome_iff n l kw v a rest hv]
      rcases hkw with rfl | rfl | rfl | rfl
      · exact Or.inl (hself _)
      · exact Or.inr (Or.inl (hself _))
      · exact Or.inr (Or.inr (Or.inl (hself _)))
      · exact Or.inr (Or.inr (Or.inr (hself _)))
    · rw [parseBoatTokens_isSome_iff n l kw v a rest hv]
      rcases hkw with rfl | rfl | rfl | rfl
      · exact Or.inl (hselfc _)
      · exact Or.inr (Or.inl (hselfc _))
      · exact Or.inr (Or.inr (Or.inl (hselfc _)))
      · exact Or.inr (Or.inr (Or.inr (hselfc _)))

/-- Witness for C9: `atof`/`atoi` of `abc` (digit-free, not an INF/NAN
keyword) yield 0, and the line `junk,xx,slip,yy,zz` (garbage in every
numeric field) decodes successfully in both paths. -/
theorem claim_C9_witness :
    atofQ "abc".toList = 0 ∧ atoiZ "abc".toList = 0 ∧
    (parseBoatTokens strEq
      ["junk".toList, "xx".toList, "slip".toList, "yy".toList, "zz".toList]).isSome
      = true := by
  have h1 := claim_C9_permissive_numeric.1 "abc".toList (by decide) (by decide)
  have h2 := claim_C9_permissive_numeric.2.1 "abc".toList (by decide)
  have h3 := (claim_C9_permissive_numeric.2.2 "junk".toList "xx".toList
    "yy".toList "zz".toList [] slipKw (Or.inl rfl) (by decide)).1
  exact ⟨h1, h2, h3⟩

/-! ### Claim C5 -/

theorem sorted_sortBoats (l : List Boat) : List.Sorted boatLe (sortBoats l) :=
  List.sorted_insertionSort boatLe l

theorem set_of_getElem? {α : Type} {l : List α} {i : Nat} {a : α}
    (h : l[i]? = some a) : l.set i a = l := by
  induction l generalizing i with
  | nil => simp at h
  | cons x xs ih =>
    cases i with
    | zero =>
      have : x = a := by simpa using h
      subst this
      rfl
    | succ j =>
      have h2 : xs[j]? = some a := by simpa using h
      simp [List.set_cons_succ, ih h2]

theorem sorted_names {l : List Boat} :
    List.Sorted boatLe l ↔
      List.Pairwise (fun x y : List Char => caseLe x y = true)
        (l.map Boat.name) := by
  rw [List.pairwise_map]
  exact Iff.rfl

theorem map_name_set {l : List Boat} {i : Nat} {b : Boat} (b' : Boat)
    (hget : l[i]? = some b) (hname : b'.name = b.name) :
    (l.set i b').map Boat.name = l.map Boat.name := by
  rw [List.map_set, hname]
  apply set_of_getElem?
  rw [List.getElem?_map, hget]
  rfl

theorem sorted_step {boats : List Boat} (hs : List.Sorted boatLe boats)
    (c : Command) : List.Sorted boatLe (stepCommand boats c) := by
  cases c with
  | inventory => exact hs
  | add line =>
    show List.Sorted boatLe (addBoat boats line)
    unfold addBoat
    by_cases hcap : MAX_BOATS ≤ boats.length
    · rw [if_pos hcap]
      exact hs
    · rw [if_neg hcap]
      rcases addDecode line with _ | b
      · exact hs
      · exact sorted_sortBoats _
  | remove name =>
    show List.Sorted boatLe (removeBoat boats name)
    unfold removeBoat
    rcases findBoatByName boats name with _ | i
    · exact hs
    · exact hs.sublist (List.eraseIdx_sublist boats i)
  | pay name amountText =>
    show List.Sorted boatLe (acceptPayment boats name (atofQ amountText))
    unfold acceptPayment
    rcases hfind : findBoatByName boats name with _ | i
    · simp only [hfind]
      exact hs
    · simp only [hfind]
      rcases hget : boats[i]? with _ | b
      · simp only [hget]
        exact hs
      · simp only [hget]
        by_cases hover : b.amountOwed < atofQ amountText
        · rw [if_pos hover]
          exact hs
        · rw [if_neg hover]
          rw [sorted_names] at hs ⊢
          rw [map_name_set
            { b with amountOwed := b.amountOwed - atofQ amountText }
            hget rfl]
          exact hs
  | month =>
    show List.Sorted boatLe (updateMonthlyCharges boats)
    rw [sorted_names] at hs ⊢
    have : (updateMonthlyCharges boats).map Boat.name = boats.map Boat.name := by
      unfold updateMonthlyCharges
      rw [List.map_map]
      rfl
    rw [this]
    exact hs

theorem sorted_run (cmds : List Command) :
    ∀ boats : List Boat, List.Sorted boatLe boats →
      List.Sorted boatLe (cmds.foldl stepCommand boats) := by
  induction cmds with
  | nil => intro boats hs; exact hs
  | cons c cs ih =>
    intro boats hs
    exact ih (stepCommand boats c) (sorted_step hs c)

/-- C5: the collection is sorted by case-insensitive boat name after every
load, and sortedness is an invariant of the interactive loop: starting from
any loaded file, after any sequence of menu interactions (inventory, add,
remove, payment, monthly charges) the collection is still sorted; in
particular it is sorted after every successful add. -/
theorem claim_C5_sorted_invariant :
    (∀ lines : List (List Char), List.Sorted boatLe (loadBoatData lines)) ∧
    (∀ (lines : List (List Char)) (cmds : List Command),
      List.Sorted boatLe (runSession lines cmds)) := by
  constructor
  · intro lines
    exact sorted_sortBoats _
  · intro lines cmds
    exact sorted_run cmds _ (sorted_sortBoats _)

/-! ### Claim C8 -/

theorem length_sortBoats (l : List Boat) : (sortBoats l).length = l.length :=
  List.length_insertionSort boatLe l

theorem loadRaw_length_le (ls : List (List Char)) :
    ∀ acc : List Boat, acc.length ≤ MAX_BOATS →
      (loadRaw ls acc).length ≤ MAX_BOATS := by
  induction ls with
  | nil => intro acc h; exact h
  | cons l ls ih =>
    intro acc h
    rw [show loadRaw (l :: ls) acc
        = if acc.length < MAX_BOATS then
            (match loadDecode l with
             | some b => loadRaw ls (acc ++ [b])
             | none => loadRaw ls acc)
          else acc from rfl]
    by_cases hlt : acc.length < MAX_BOATS
    · rw [if_pos hlt]
      rcases loadDecode l with _ | b
      · exact ih acc h
      · apply ih
        simp only [List.length_append, List.length_singleton]
        omega
    · rw [if_neg hlt]
      exact h

theorem step_length_le {boats : List Boat} (h : boats.length ≤ MAX_BOATS)
    (c : Command) : (stepCommand boats c).length ≤ MAX_BOATS := by
  cases c with
  | inventory => exact h
  | add line =>
    show (addBoat boats line).length ≤ MAX_BOATS
    unfold addBoat
    by_cases hcap : MAX_BOATS ≤ boats.length
    · rw [if_pos hcap]
      exact h
    · rw [if_neg hcap]
      rcases addDecode line with _ | b
      · exact h
      · rw [length_sortBoats]
        simp only [List.length_append, List.length_singleton]
        omega
  | remove name =>
    show (removeBoat boats name).length ≤ MAX_BOATS
    unfold removeBoat
    rcases findBoatByName boats name with _ | i
    · exact h
    · exact le_trans (List.eraseIdx_sublist boats i).length_le h
  | pay name amountText =>
    show (acceptPayment boats name (atofQ amountText)).length ≤ MAX_BOATS
    unfold acceptPayment
    rcases hfind : findBoatByName boats name with _ | i
    · simp only [hfind]
      exact h
    · simp only [hfind]
      rcases hget : boats[i]? with _ | b
      · simp only [hget]
        exact h
      · simp only [hget]
        by_cases hover : b.amountOwed < atofQ amountText
        · rw [if_pos hover]
          exact h
        · rw [if_neg hover]
          rw [List.length_set]
          exact h
  | month =>
    show (updateMonthlyCharges boats).length ≤ MAX_BOATS
    unfold updateMonthlyCharges
    rw [List.length_map]
    exact h

theorem run_length_le (cmds : List Command) :
    ∀ boats : List Boat, boats.length ≤ MAX_BOATS →
      (cmds.foldl stepCommand boats).length ≤ MAX_BOATS := by
  induction cmds with
  | nil => intro boats h; exact h
  | cons c cs ih =>
    intro boats h
    exact ih (stepCommand boats c) (step_length_le h c)

/-- C8: `addBoat` rejects when the collection already holds `MAX_BOATS`
(120) records, leaving the collection unchanged; `loadBoatData` keeps at
most `MAX_BOATS` decoded records; and the collection size never exceeds
that bound in any reachable state of the interactive loop. -/
theorem claim_C8_capacity :
    (∀ (boats : List Boat) (line : List Char), MAX_BOATS ≤ boats.length →
      addBoat boats line = boats) ∧
    (∀ lines : List (List Char), (loadBoatData lines).length ≤ MAX_BOATS) ∧
    (∀ (lines : List (List Char)) (cmds : List Command),
      (runSession lines cmds).length ≤ MAX_BOATS) := by
  refine ⟨?_, ?_, ?_⟩
  · intro boats line hcap
    unfold addBoat
    rw [if_pos hcap]
  · intro lines
    unfold loadBoatData
    rw [length_sortBoats]
    exact loadRaw_length_le lines [] (by simp [MAX_BOATS])
  · intro lines cmds
    unfold runSession
    apply run_length_le
    unfold loadBoatData
    rw [length_sortBoats]
    exact loadRaw_length_le lines [] (by simp [MAX_BOATS])

/-- Witness for C8: adding a decodable line to a collection of exactly 120
records is rejected and leaves the collection unchanged. -/
theorem claim_C8_witness :
    addBoat (List.replicate MAX_BOATS ⟨"A".toList, 1, .slip 1, 0⟩)
        "New,10,slip,2,0".toList
      = List.replicate MAX_BOATS ⟨"A".toList, 1, .slip 1, 0⟩ ∧
    MAX_BOATS ≤ (List.replicate MAX_BOATS
      (⟨"A".toList, 1, .slip 1, 0⟩ : Boat)).length := by
  refine ⟨claim_C8_capacity.1 _ _ ?_, ?_⟩ <;> simp

end BoatManagement
